import Mathlib

/-!
Verification of the receipt rendering and ESC* raster packing engine
(`src/lib.rs` of the pos-receipt-printer repository).

The rendering code is shallowly embedded:

* Pixel drawing is modelled as a trace of draw calls; a draw call
  `(s, x, y)` stands for `draw_text_mut(img, black, x, y, scale, font, s)`.
  A drawn string is interpreted as its positioned glyphs: character `i` of
  the string sits at the x position given by the summed advance widths of
  the characters before it, which is how both `measure` and glyph layout
  walk the string in the source.
* Font metrics are abstracted by an advance-width function `adv : Char → Nat`
  (the source sums `rusttype` per-glyph `advance_width` values and rounds the
  sum to `i32`; the integer model makes that sum exact).
* Arabic reshaping (`ar_reshaper::reshape_line`) is an external pure string
  transformation; it is abstracted as `σ : List Char → List Char`.
* In the line wrapper every measurement in the source is of the form
  `measure(scale, font, &shape(s))`, so the wrapper is parameterised by the
  composite width function `W : List Char → Int`.
* Images are width/height plus a pixel function; `pack_esc_star_24` and the
  band emission loop of `print_receipt` are translated directly on that model.
-/

/-- The non-breaking space character `'\u{00A0}'` used by the source. -/
def nbsp : Char := Char.ofNat 0xA0

/-- `is_ltr_char` from the source: spaces are neutral (false here), ASCII
alphanumerics, Arabic-Indic and Extended Arabic-Indic digits and a small
punctuation set are LTR, everything else is RTL. -/
def isLtrChar (c : Char) : Bool :=
  if c = ' ' ∨ c = nbsp then false
  else if c.isAlphanum then true
  else if (0x660 ≤ c.toNat ∧ c.toNat ≤ 0x669) ∨ (0x6F0 ≤ c.toNat ∧ c.toNat ≤ 0x6F9) then true
  else decide (c = ':' ∨ c = '.' ∨ c = ',' ∨ c = '-' ∨ c = '–' ∨ c = '—' ∨ c = '/')

/-- Rust's `char::is_whitespace` (the Unicode White_Space property), used by
`split_inclusive` and `trim_end` in the wrapper. -/
def rustIsWhitespace (c : Char) : Bool :=
  decide (c.toNat ∈ [0x09, 0x0A, 0x0B, 0x0C, 0x0D, 0x20, 0x85, 0xA0, 0x1680,
                     0x2028, 0x2029, 0x202F, 0x205F, 0x3000])
  || decide (0x2000 ≤ c.toNat ∧ c.toNat ≤ 0x200A)

/-- Rust `str::trim_end`: drop trailing whitespace characters. -/
def trimEnd (s : List Char) : List Char :=
  (s.reverse.dropWhile rustIsWhitespace).reverse

/-- Rust `str::split_inclusive(char::is_whitespace)`: split after every
whitespace character, keeping the whitespace attached to the preceding
segment; the empty string yields no segments. -/
def splitInclusive (p : Char → Bool) : List Char → List (List Char)
  | [] => []
  | c :: rest =>
    let r := splitInclusive p rest
    if p c then [c] :: r
    else
      match r with
      | [] => [[c]]
      | t :: ts => (c :: t) :: ts

/-- `measure` from the source: the sum of the per-character advance widths
(the source sums `rusttype` float advances over `font.layout` and rounds the
total; advances are modelled as exact naturals). -/
def measureAdv (adv : Char → Nat) : List Char → Int
  | [] => 0
  | c :: s => (adv c : Int) + measureAdv adv s

/-- The classification the segmentation loop assigns to the next character:
a space or non-breaking space inherits the direction of the open run,
any other character is classified by `is_ltr_char`. -/
def classifyNext (kind : Bool) (c : Char) : Bool :=
  if c = ' ' ∨ c = nbsp then kind else isLtrChar c

/-- The run segmentation loop of `draw_mixed_rtl_right` (state: emitted runs,
current run text, current run direction `Option Bool`; `none` before the
first character). -/
def runsLoop : List Char → List (Bool × List Char) → List Char → Option Bool →
    List (Bool × List Char)
  | [], runs, cur, curIs =>
    if cur = [] then runs else runs ++ [(curIs.getD false, cur)]
  | c :: rest, runs, cur, none =>
    runsLoop rest runs (cur ++ [c])
      (some (if c = ' ' ∨ c = nbsp then false else isLtrChar c))
  | c :: rest, runs, cur, some kind =>
    if kind = classifyNext kind c ∨ c = ' ' ∨ c = nbsp then
      runsLoop rest runs (cur ++ [c]) (some kind)
    else
      runsLoop rest (runs ++ [(kind, cur)]) [c] (some (classifyNext kind c))

/-- Segment an (already reshaped) string into direction runs, as
`draw_mixed_rtl_right` does. -/
def mixedRuns (s : List Char) : List (Bool × List Char) :=
  runsLoop s [] [] none

/-- Positioned glyphs of a string drawn at x position `x`: character `i` is
placed after the advances of the preceding characters. -/
def placeChars (adv : Char → Nat) (y : Int) : List Char → Int → List (Char × Int × Int)
  | [], _ => []
  | c :: s, x => (c, x, y) :: placeChars adv y s (x + (adv c : Int))

/-- The char-by-char drawing loop for an RTL run: each character of the
(already reversed) list is drawn as a one-character string, advancing
rightward by its own measured width. -/
def drawRtlChars (adv : Char → Nat) (y : Int) : List Char → Int → List (List Char × Int × Int)
  | [], _ => []
  | c :: s, x => ([c], x, y) :: drawRtlChars adv y s (x + (adv c : Int))

/-- `draw_ltr_right` from the source: draw `s` as one unit ending at `xr`. -/
def drawLtrRight (adv : Char → Nat) (s : List Char) (xr y : Int) :
    List (List Char × Int × Int) :=
  [(s, xr - measureAdv adv s, y)]

/-- The run placement loop of `draw_mixed_rtl_right`: walk the runs with a
moving right edge; an LTR run is drawn as a unit ending at the cursor, an
RTL run is drawn character-by-character in reverse starting at
`cursor - run_width`; in both cases the cursor then moves left by the
run's measured width. -/
def drawRunsGo (adv : Char → Nat) (y : Int) :
    List (Bool × List Char) → Int → List (List Char × Int × Int)
  | [], _ => []
  | (isL, seg) :: rest, right =>
    (if isL then [(seg, right - measureAdv adv seg, y)]
     else drawRtlChars adv y seg.reverse (right - measureAdv adv seg))
      ++ drawRunsGo adv y rest (right - measureAdv adv seg)

/-- `draw_mixed_rtl_right` from the source: reshape, segment into runs and
place them right-to-left from the anchor `xr`. -/
def drawMixedRtlRight (σ : List Char → List Char) (adv : Char → Nat)
    (logical : List Char) (xr y : Int) : List (List Char × Int × Int) :=
  drawRunsGo adv y (mixedRuns (σ logical)) xr

/-- Flatten a draw-call trace into its positioned glyphs. -/
def glyphsOfTrace (adv : Char → Nat) : List (List Char × Int × Int) → List (Char × Int × Int)
  | [] => []
  | (s, x, y) :: rest => placeChars adv y s x ++ glyphsOfTrace adv rest

/-- How many drawn glyphs cover the horizontal position `t` (a glyph at `x`
with advance `w` covers `[x, x+w)`). -/
def coverCount (adv : Char → Nat) (gs : List (Char × Int × Int)) (t : Int) : Nat :=
  gs.countP (fun g => decide (g.2.1 ≤ t ∧ t < g.2.1 + (adv g.1 : Int)))

/-- The token accumulation loop of `wrap_mixed_rtl`. `W` is the composite
`measure(scale, font, shape(-))` width function. Returns the finalized
lines together with the still-open line. -/
def wrapLoop (W : List Char → Int) (maxW : Int) :
    List (List Char) → List (List Char) → List Char → List (List Char) × List Char
  | [], out, line => (out, line)
  | tok :: rest, out, line =>
    if W (line ++ tok) ≤ maxW ∨ line = [] then
      wrapLoop W maxW rest out (line ++ tok)
    else if (out ++ [trimEnd line]).length = 2 then
      (out ++ [trimEnd line], tok)
    else
      wrapLoop W maxW rest (out ++ [trimEnd line]) tok

/-- The state of `wrap_mixed_rtl` right after the token loop. -/
def wrapStage1 (W : List Char → Int) (logical : List Char) (maxW : Int) :
    List (List Char) × List Char :=
  wrapLoop W maxW (splitInclusive rustIsWhitespace logical) [] []

/-- `wrap_mixed_rtl` after flushing the still-open line. -/
def wrapStage2 (W : List Char → Int) (logical : List Char) (maxW : Int) :
    List (List Char) :=
  if (wrapStage1 W logical maxW).1.length < 2 ∧ (wrapStage1 W logical maxW).2 ≠ [] then
    (wrapStage1 W logical maxW).1 ++ [trimEnd (wrapStage1 W logical maxW).2]
  else (wrapStage1 W logical maxW).1

/-- `wrap_mixed_rtl` after the `truncate(2)` step, before ellipsization. -/
def wrapPre (W : List Char → Int) (logical : List Char) (maxW : Int) :
    List (List Char) :=
  if 2 < (wrapStage2 W logical maxW).length then (wrapStage2 W logical maxW).take 2
  else wrapStage2 W logical maxW

/-- The pop-until-it-fits loop of the ellipsization step. The loop pops one
character per iteration, so fuel equal to the string length makes the
recursion structural without changing the result. -/
def ellLoopF (W : List Char → Int) (maxW : Int) : Nat → List Char → List Char
  | 0, s2 => s2
  | n + 1, s2 =>
    if maxW < W (s2 ++ ['…']) ∧ s2 ≠ [] then ellLoopF W maxW n s2.dropLast else s2

/-- `wrap_mixed_rtl` from the source: greedy two-line wrap; whenever exactly
two lines come out, the second is popped until it fits with an appended
ellipsis and the ellipsis is appended. -/
def wrapMixedRtl (W : List Char → Int) (logical : List Char) (maxW : Int) :
    List (List Char) :=
  if (wrapPre W logical maxW).length = 2 then
    (wrapPre W logical maxW).set 1
      (trimEnd (ellLoopF W maxW ((wrapPre W logical maxW).getD 1 []).length
        ((wrapPre W logical maxW).getD 1 [])) ++ ['…'])
  else wrapPre W logical maxW

/-- Column geometry of `render_receipt`: the inner width. -/
def innerWidth (paperW marginH : Int) : Int := paperW - marginH * 2

/-- Right edge of the name column (`r_name = right_edge = margin_h + inner_w`). -/
def colRName (marginH innerW : Int) : Int := marginH + innerW

/-- Right edge of the quantity column (`r_qty = r_name - w_name`). -/
def colRQty (marginH innerW wName : Int) : Int := colRName marginH innerW - wName

/-- Right edge of the price column (`r_price = r_qty - w_qty`). -/
def colRPrice (marginH innerW wName wQty : Int) : Int :=
  colRQty marginH innerW wName - wQty

/-- Right edge of the total column (`r_total = r_price - w_total` in the
source). -/
def colRTotal (marginH innerW wName wQty wTotal : Int) : Int :=
  colRPrice marginH innerW wName wQty - wTotal

/-- Item rows: wrapped name lines, capped at two (`.take(2)` in the source). -/
def itemLines (W : List Char → Int) (name : List Char) (wName : Int) :
    List (List Char) :=
  (wrapMixedRtl W name wName).take 2

/-- `line_count = lines.len().max(1)` from the item row loop. -/
def itemLineCount (W : List Char → Int) (name : List Char) (wName : Int) : Nat :=
  max (itemLines W name wName).length 1

/-- Vertical advance of one item row: `line_count * (row_gap - 4)`. -/
def itemAdvance (W : List Char → Int) (name : List Char) (wName rowGap : Int) : Int :=
  (itemLineCount W name wName : Int) * (rowGap - 4)

/-- The per-line drawing loop of an item row: each wrapped line is drawn
right-anchored in the name column; quantity, price and total are drawn only
on the first line (`i == 0`). -/
def itemRowGo (σ : List Char → List Char) (adv : Char → Nat)
    (y rowGap rName rQty rPrice rTotal : Int) (qtyS priceS totalS : List Char) :
    List (List Char) → Nat → List (List Char × Int × Int)
  | [], _ => []
  | ln :: rest, i =>
    drawMixedRtlRight σ adv ln rName (y + (i : Int) * (rowGap - 4))
      ++ (if i = 0 then
            drawLtrRight adv qtyS rQty (y + (i : Int) * (rowGap - 4))
              ++ drawLtrRight adv priceS rPrice (y + (i : Int) * (rowGap - 4))
              ++ drawLtrRight adv totalS rTotal (y + (i : Int) * (rowGap - 4))
          else [])
      ++ itemRowGo σ adv y rowGap rName rQty rPrice rTotal qtyS priceS totalS rest (i + 1)

/-- All draw calls an item row issues. -/
def itemRowCalls (σ : List Char → List Char) (adv : Char → Nat)
    (lines : List (List Char)) (y rowGap rName rQty rPrice rTotal : Int)
    (qtyS priceS totalS : List Char) : List (List Char × Int × Int) :=
  itemRowGo σ adv y rowGap rName rQty rPrice rTotal qtyS priceS totalS lines 0

/-- A grayscale image: width, height and a pixel (luma) function. -/
structure GrayImg where
  width : Nat
  height : Nat
  pixel : Nat → Nat → Nat

/-- One packed byte of `pack_esc_star_24`: byte `b` of column `x` collects
bits for rows `y0 + 8b .. y0 + 8b + 7`, MSB first; rows at or beyond the
image height contribute a 0 bit; a pixel is printed when its value is at
most the threshold. -/
def packByte (g : GrayImg) (y0 t x b : Nat) : Nat :=
  (List.range 8).foldl
    (fun acc bit =>
      if y0 + (b * 8 + bit) < g.height ∧ g.pixel x (y0 + (b * 8 + bit)) ≤ t then
        acc ||| (1 <<< (7 - bit))
      else acc) 0

/-- The column loop of `pack_esc_star_24`: 3 bytes per column, column-major,
for `n` remaining columns starting at column `x`. -/
def packCols (g : GrayImg) (y0 t : Nat) : Nat → Nat → List Nat
  | _, 0 => []
  | x, n + 1 => (List.range 3).map (packByte g y0 t x) ++ packCols g y0 t (x + 1) n

/-- `pack_esc_star_24` from the source. -/
def packEscStar24 (g : GrayImg) (y0 t : Nat) : List Nat :=
  packCols g y0 t 0 g.width

/-- `nL`: low byte of the raster width (`n = w as u16; nL = n & 0xFF`). -/
def escNL (w : Nat) : Nat := w % 65536 % 256

/-- `nH`: high byte of the raster width (`nH = (n >> 8) & 0xFF`). -/
def escNH (w : Nat) : Nat := w % 65536 / 256 % 256

/-- The 5-byte `ESC * 33 nL nH` raster-mode command. -/
def escStarHeader (w : Nat) : List Nat := [0x1B, 0x2A, 33, escNL w, escNH w]

/-- One emitted band: raster command, packed band bytes, line feed. -/
def bandChunk (g : GrayImg) (t y0 : Nat) : List Nat :=
  escStarHeader g.width ++ packEscStar24 g y0 t ++ [0x0A]

/-- The band emission loop of `print_receipt`
(`while y0 < height { emit; y0 += 24 }`). -/
def printBands (g : GrayImg) (t : Nat) (y0 : Nat) : List Nat :=
  if y0 < g.height then bandChunk g t y0 ++ printBands g t (y0 + 24) else []
termination_by g.height - y0
decreasing_by omega

/-- The whole byte stream of `print_receipt` after initialization: bands,
then a final line feed, then the cut command (the `escpos` cut bytes are an
external constant, passed in as `cut`). -/
def printStream (g : GrayImg) (t : Nat) (cut : List Nat) : List Nat :=
  printBands g t 0 ++ [0x0A] ++ cut

/-- Concatenation of a list of byte lists. -/
def concatList : List (List Nat) → List Nat
  | [] => []
  | l :: ls => l ++ concatList ls

/-- Whether the inner `for dx in 0..3` loop of `draw_dotted` issues an
out-of-bounds `put_pixel` at position `x` (which panics in the source). -/
def dottedBad (imgW imgH yc : Nat) (right x : Int) : Bool :=
  ([0, 1, 2] : List Int).any (fun dx =>
    decide (x + dx < right) && (decide (imgW ≤ (x + dx).toNat) || decide (imgH ≤ yc)))

/-- The `while x < right` loop of `draw_dotted`, advancing by 10 per
iteration; fuel `(right - x).toNat` is enough because `x` grows by 10 ≥ 1
each step, and when the fuel runs out `x ≥ right` already holds. -/
def dottedGoF (imgW imgH yc : Nat) (right : Int) : Nat → Int → Bool
  | 0, _ => false
  | n + 1, x =>
    if x < right then
      (if dottedBad imgW imgH yc right x then true
       else dottedGoF imgW imgH yc right n (x + 10))
    else false

/-- `draw_dotted` clamps `y` at 0 (`y.max(0)`) and `x` at 0 (`left.max(0)`)
but not at the canvas size; this predicate says some `put_pixel` of the
dotted rule is out of bounds (an `ImageBuffer::put_pixel` panic). -/
def dottedPanics (imgW imgH : Nat) (y left right : Int) : Bool :=
  dottedGoF imgW imgH (max y 0).toNat right (right - max left 0).toNat (max left 0)

/-- The layout constants of `Layout` (font sizes are whole-valued `f32`s in
the source, cast to `i32` wherever they enter the y cursor; they are carried
as integers here). -/
structure LayoutM where
  paperWidthPx : Nat
  threshold : Nat
  marginH : Int
  marginTop : Int
  marginBottom : Int
  rowGap : Int
  fTitle : Int
  fHeaderDt : Int
  fHeaderNo : Int
  fHeaderCols : Int
  fItem : Int
  fTotalLabel : Int
  fTotalValue : Int
  fFooter : Int
  fFooterPhones : Int

/-- `Layout::default()` from the source. -/
def defaultLayout : LayoutM :=
  { paperWidthPx := 576, threshold := 150, marginH := 0, marginTop := -28,
    marginBottom := 0, rowGap := 32, fTitle := 90, fHeaderDt := 45,
    fHeaderNo := 46, fHeaderCols := 42, fItem := 44, fTotalLabel := 48,
    fTotalValue := 66, fFooter := 45, fFooterPhones := 56 }

/-- The pre-allocated canvas height (`ImageBuffer::from_pixel(w, 2000, ...)`). -/
def canvasHeight : Nat := 2000

/-- The y cursor of `render_receipt` at the dotted-separator draw, given the
wrapped line count of each item: title advance `fTitle - 8`, date/time
`fHeaderDt + 2`, number `fHeaderNo + 2`, headings `rowGap - 6`, each item
`lineCount * (rowGap - 4)`, then `+ 18` before `draw_dotted`. -/
def ySeparator (L : LayoutM) (lineCounts : List Nat) : Int :=
  L.marginTop + (L.fTitle - 8) + (L.fHeaderDt + 2) + (L.fHeaderNo + 2) + (L.rowGap - 6)
    + (lineCounts.map (fun lc => (lc : Int) * (L.rowGap - 4))).sum + 18

/-- A concrete width function for witnesses: every character one unit wide. -/
def lenW (s : List Char) : Int := s.length

/-- A concrete width function for counterexamples: ten units per character. -/
def tenW (s : List Char) : Int := 10 * s.length

/-- A concrete advance function for witnesses. -/
def cAdv : Char → Nat := fun _ => 3

/-- A concrete test image for witnesses. -/
def cImg : GrayImg :=
  { width := 2, height := 10, pixel := fun x y => if (x + y) % 2 = 0 then 100 else 200 }

theorem runsLoop_neutral (s : List Char) :
    ∀ (runs : List (Bool × List Char)) (cur : List Char), cur ≠ [] →
      (∀ c ∈ s, c = ' ' ∨ c = nbsp) →
      runsLoop s runs cur (some false) = runs ++ [(false, cur ++ s)] := by
  induction s with
  | nil => intro runs cur hcur _; simp [runsLoop, hcur]
  | cons c rest ih =>
    intro runs cur hcur h
    have hc : c = ' ' ∨ c = nbsp := h c (List.mem_cons_self c rest)
    have hcl : classifyNext false c = false := by rw [classifyNext, if_pos hc]
    simp only [runsLoop]
    rw [if_pos (Or.inr hc)]
    rw [ih runs (cur ++ [c]) (by simp) (fun x hx => h x (List.mem_cons_of_mem c hx))]
    simp

theorem runsLoop_allLtr (s : List Char) :
    ∀ (runs : List (Bool × List Char)) (cur : List Char), cur ≠ [] →
      (∀ c ∈ s, isLtrChar c = true) →
      runsLoop s runs cur (some true) = runs ++ [(true, cur ++ s)] := by
  induction s with
  | nil => intro runs cur hcur _; simp [runsLoop, hcur]
  | cons c rest ih =>
    intro runs cur hcur h
    have hc : isLtrChar c = true := h c (List.mem_cons_self c rest)
    have hns : ¬(c = ' ' ∨ c = nbsp) := by
      intro hsp
      rw [isLtrChar, if_pos hsp] at hc
      exact Bool.false_ne_true hc
    have hcl : classifyNext true c = true := by rw [classifyNext, if_neg hns, hc]
    simp only [runsLoop]
    rw [if_pos (Or.inl hcl.symm)]
    rw [ih runs (cur ++ [c]) (by simp) (fun x hx => h x (List.mem_cons_of_mem c hx))]
    simp

theorem mixedRuns_allLtr (c : Char) (rest : List Char)
    (h : ∀ x ∈ c :: rest, isLtrChar x = true) :
    mixedRuns (c :: rest) = [(true, c :: rest)] := by
  have hc : isLtrChar c = true := h c (List.mem_cons_self c rest)
  have hns : ¬(c = ' ' ∨ c = nbsp) := by
    intro hsp
    rw [isLtrChar, if_pos hsp] at hc
    exact Bool.false_ne_true hc
  have h1 : mixedRuns (c :: rest)
      = runsLoop rest [] [c] (some (if c = ' ' ∨ c = nbsp then false else isLtrChar c)) := rfl
  rw [h1, if_neg hns, hc]
  rw [runsLoop_allLtr rest [] [c] (by simp) (fun x hx => h x (List.mem_cons_of_mem c hx))]
  simp

/-- C6 (amended): a non-empty input of only neutral characters (space and
non-breaking space) is segmented into exactly one run, and its direction
defaults to RTL (`is_ltr = false`), not LTR. -/
theorem neutral_input_single_rtl_run (s : List Char) (hne : s ≠ [])
    (hn : ∀ c ∈ s, c = ' ' ∨ c = nbsp) : mixedRuns s = [(false, s)] := by
  cases s with
  | nil => exact absurd rfl hne
  | cons c rest =>
    have hc : c = ' ' ∨ c = nbsp := hn c (List.mem_cons_self c rest)
    have h1 : mixedRuns (c :: rest)
        = runsLoop rest [] [c] (some (if c = ' ' ∨ c = nbsp then false else isLtrChar c)) := rfl
    rw [h1, if_pos hc]
    rw [runsLoop_neutral rest [] [c] (by simp) (fun x hx => hn x (List.mem_cons_of_mem c hx))]
    simp

/-- C6 counterexample: on the all-neutral input of two spaces the single run
produced carries direction RTL (`false`), so the claimed LTR default is
wrong. -/
theorem neutral_input_run_not_ltr :
    (mixedRuns [' ', ' ']).map Prod.fst = [false] ∧
      (mixedRuns [' ', ' ']).map Prod.fst ≠ [true] := by decide

theorem neutral_input_single_rtl_run_witness :
    ([' '] : List Char) ≠ [] ∧ mixedRuns [' '] = [(false, [' '])] :=
  ⟨by decide, neutral_input_single_rtl_run [' '] (by decide) (by decide)⟩

/-- C4 counterexample: with the default-layout column widths (inner width
576 and truncated widths 345, 63, 69, 97 for name/qty/price/total), the
total column's right edge computed by the code differs from
`price right edge - price width` claimed by the spec: the code subtracts
the total column width. -/
theorem column_geometry_counterexample :
    colRTotal 0 576 345 63 97 ≠ colRPrice 0 576 345 63 - 69 := by decide

/-- C4 (amended): inner width = paper width - 2*margin; name right edge =
inner right edge; qty right edge = name's right edge - name width; price
right edge = qty's right edge - qty width; total right edge = price's right
edge - the TOTAL column width (not the price column width). -/
theorem column_right_edges (paperW marginH wName wQty wTotal : Int) :
    innerWidth paperW marginH = paperW - 2 * marginH ∧
    colRName marginH (innerWidth paperW marginH) = marginH + innerWidth paperW marginH ∧
    colRQty marginH (innerWidth paperW marginH) wName
      = colRName marginH (innerWidth paperW marginH) - wName ∧
    colRPrice marginH (innerWidth paperW marginH) wName wQty
      = colRQty marginH (innerWidth paperW marginH) wName - wQty ∧
    colRTotal marginH (innerWidth paperW marginH) wName wQty wTotal
      = colRPrice marginH (innerWidth paperW marginH) wName wQty - wTotal :=
  ⟨by rw [innerWidth]; ring, rfl, rfl, rfl, rfl⟩

/-- C10: an item with an empty name wraps to no lines, issues no draw calls
at all (neither name nor the numeric columns, whose draws live inside the
per-line loop), yet advances the cursor by exactly one row height
`row_gap - 4` because the line count is clamped to a minimum of 1. -/
theorem empty_name_row (W : List Char → Int) (σ : List Char → List Char)
    (adv : Char → Nat) (wName y rowGap rName rQty rPrice rTotal : Int)
    (qtyS priceS totalS : List Char) :
    wrapMixedRtl W [] wName = [] ∧
    itemRowCalls σ adv (itemLines W [] wName) y rowGap rName rQty rPrice rTotal
      qtyS priceS totalS = [] ∧
    itemAdvance W [] wName rowGap = rowGap - 4 := by
  have h : wrapMixedRtl W [] wName = [] := rfl
  refine ⟨h, ?_, ?_⟩
  · simp [itemLines, h, itemRowCalls, itemRowGo]
  · simp [itemAdvance, itemLineCount, itemLines, h]

theorem foldl_or_testBit (cond : Nat → Prop) [DecidablePred cond] (l : List Nat) :
    ∀ (acc j : Nat),
      (l.foldl (fun a bit => if cond bit then a ||| (1 <<< (7 - bit)) else a) acc).testBit j
        = (acc.testBit j || l.any (fun bit => decide (cond bit) && decide (7 - bit = j))) := by
  induction l with
  | nil => intro acc j; simp
  | cons b l ih =>
    intro acc j
    rw [List.foldl_cons, ih, List.any_cons]
    by_cases hc : cond b
    · rw [if_pos hc, Nat.testBit_lor, Nat.shiftLeft_eq, one_mul, Nat.testBit_two_pow]
      simp [hc, Bool.or_assoc]
    · rw [if_neg hc]
      simp [hc]

theorem packByte_testBit (g : GrayImg) (y0 t x b i : Nat) (hi : i < 8) :
    (packByte g y0 t x b).testBit (7 - i)
      = decide (y0 + (b * 8 + i) < g.height ∧ g.pixel x (y0 + (b * 8 + i)) ≤ t) := by
  rw [packByte, foldl_or_testBit, Nat.zero_testBit, Bool.false_or]
  have h8 : List.range 8 = [0, 1, 2, 3, 4, 5, 6, 7] := rfl
  rw [h8]
  interval_cases i <;> simp

theorem packCols_length (g : GrayImg) (y0 t : Nat) :
    ∀ (n x : Nat), (packCols g y0 t x n).length = 3 * n := by
  intro n
  induction n with
  | zero => intro x; rfl
  | succ n ih =>
    intro x
    rw [packCols]
    rw [List.length_append, List.length_map, List.length_range, ih]
    ring

theorem packCols_getD (g : GrayImg) (y0 t : Nat) :
    ∀ (n x k b : Nat), k < n → b < 3 →
      (packCols g y0 t x n).getD (3 * k + b) 0 = packByte g y0 t (x + k) b := by
  intro n
  induction n with
  | zero => intro x k b hk _; exact absurd hk (Nat.not_lt_zero k)
  | succ n ih =>
    intro x k b hk hb
    rw [packCols]
    have h3 : (List.range 3).map (packByte g y0 t x)
        = [packByte g y0 t x 0, packByte g y0 t x 1, packByte g y0 t x 2] := rfl
    rw [h3]
    cases k with
    | zero =>
      simp only [Nat.mul_zero, Nat.zero_add, Nat.add_zero, List.cons_append]
      interval_cases b <;> simp [List.getD_cons_zero, List.getD_cons_succ]
    | succ k =>
      have hidx : 3 * (k + 1) + b = 3 * k + b + 3 := by ring
      rw [hidx]
      simp only [List.cons_append, List.nil_append, List.getD_cons_succ]
      have harg : x + 1 + k = x + (k + 1) := by omega
      rw [ih (x + 1) k b (by omega) hb, harg]

/-- C1: `pack_esc_star_24` returns exactly `3 * width` bytes in column-major
order, and in byte `3x + b` the bit at position `7 - i` is set iff row
`y0 + 8b + i` lies inside the image and the pixel at `(x, y0 + 8b + i)` is
at most the threshold; rows at or beyond the height contribute a 0 bit. -/
theorem pack_band_bits (g : GrayImg) (y0 t x b i : Nat)
    (hx : x < g.width) (hb : b < 3) (hi : i < 8) :
    (packEscStar24 g y0 t).length = 3 * g.width ∧
    ((packEscStar24 g y0 t).getD (3 * x + b) 0).testBit (7 - i)
      = decide (y0 + (8 * b + i) < g.height ∧ g.pixel x (y0 + (8 * b + i)) ≤ t) := by
  constructor
  · rw [packEscStar24]; exact packCols_length g y0 t g.width 0
  · rw [packEscStar24, packCols_getD g y0 t g.width 0 x b hx hb, Nat.zero_add,
      packByte_testBit g y0 t x b i hi]
    have hmul : b * 8 + i = 8 * b + i := by ring
    rw [hmul]

theorem pack_band_bits_witness :
    (1 < cImg.width ∧ 0 < 3 ∧ 1 < 8) ∧
    ((packEscStar24 cImg 0 150).length = 3 * cImg.width ∧
      ((packEscStar24 cImg 0 150).getD (3 * 1 + 0) 0).testBit (7 - 1)
        = decide (0 + (8 * 0 + 1) < cImg.height ∧ cImg.pixel 1 (0 + (8 * 0 + 1)) ≤ 150)) :=
  ⟨by decide, pack_band_bits cImg 0 150 1 0 1 (by decide) (by decide) (by decide)⟩

theorem measureAdv_nonneg (adv : Char → Nat) (s : List Char) : 0 ≤ measureAdv adv s := by
  induction s with
  | nil => simp [measureAdv]
  | cons c s ih =>
    rw [measureAdv]
    have := Int.ofNat_nonneg (adv c)
    omega

theorem measureAdv_append (adv : Char → Nat) (l₁ l₂ : List Char) :
    measureAdv adv (l₁ ++ l₂) = measureAdv adv l₁ + measureAdv adv l₂ := by
  induction l₁ with
  | nil => simp [measureAdv]
  | cons c l ih =>
    have h : measureAdv adv ((c :: l) ++ l₂) = (adv c : Int) + measureAdv adv (l ++ l₂) := rfl
    rw [h, ih, measureAdv]
    ring

theorem measureAdv_reverse (adv : Char → Nat) (s : List Char) :
    measureAdv adv s.reverse = measureAdv adv s := by
  induction s with
  | nil => rfl
  | cons c s ih =>
    rw [List.reverse_cons, measureAdv_append, ih]
    simp [measureAdv]
    ring

theorem coverCount_append (adv : Char → Nat) (g1 g2 : List (Char × Int × Int)) (t : Int) :
    coverCount adv (g1 ++ g2) t = coverCount adv g1 t + coverCount adv g2 t := by
  simp [coverCount, List.countP_append]

theorem coverCount_cons (adv : Char → Nat) (g : Char × Int × Int)
    (gs : List (Char × Int × Int)) (t : Int) :
    coverCount adv (g :: gs) t
      = coverCount adv gs t + (if g.2.1 ≤ t ∧ t < g.2.1 + (adv g.1 : Int) then 1 else 0) := by
  simp [coverCount, List.countP_cons]

theorem placeChars_cover (adv : Char → Nat) (y t : Int) :
    ∀ (s : List Char) (x : Int),
      coverCount adv (placeChars adv y s x) t
        = if x ≤ t ∧ t < x + measureAdv adv s then 1 else 0 := by
  intro s
  induction s with
  | nil =>
    intro x
    simp only [placeChars, coverCount, List.countP_nil, measureAdv]
    split_ifs with h <;> omega
  | cons c s ih =>
    intro x
    have hp : placeChars adv y (c :: s) x
        = (c, x, y) :: placeChars adv y s (x + (adv c : Int)) := rfl
    rw [hp, coverCount_cons, ih]
    dsimp only
    have hm : measureAdv adv (c :: s) = (adv c : Int) + measureAdv adv s := rfl
    rw [hm]
    have h1 : (0 : Int) ≤ (adv c : Int) := Int.ofNat_nonneg _
    have h2 := measureAdv_nonneg adv s
    split_ifs <;> omega

theorem drawRtl_glyphs (adv : Char → Nat) (y : Int) :
    ∀ (s : List Char) (x : Int),
      glyphsOfTrace adv (drawRtlChars adv y s x) = placeChars adv y s x := by
  intro s
  induction s with
  | nil => intro x; rfl
  | cons c s ih =>
    intro x
    have hd : drawRtlChars adv y (c :: s) x
        = ([c], x, y) :: drawRtlChars adv y s (x + (adv c : Int)) := rfl
    rw [hd]
    simp [glyphsOfTrace, placeChars, ih]

theorem glyphsOfTrace_append (adv : Char → Nat) :
    ∀ (t1 t2 : List (List Char × Int × Int)),
      glyphsOfTrace adv (t1 ++ t2) = glyphsOfTrace adv t1 ++ glyphsOfTrace adv t2 := by
  intro t1
  induction t1 with
  | nil => intro t2; rfl
  | cons hd t1 ih =>
    intro t2
    obtain ⟨s, x, y⟩ := hd
    simp [glyphsOfTrace, ih, List.append_assoc]

theorem runWidths_nonneg (adv : Char → Nat) (rest : List (Bool × List Char)) :
    0 ≤ (rest.map (fun r => measureAdv adv r.2)).sum := by
  apply List.sum_nonneg
  intro x hx
  obtain ⟨r, _, rfl⟩ := List.mem_map.mp hx
  exact measureAdv_nonneg adv r.2

theorem drawRunsGo_cover (adv : Char → Nat) (y t : Int) :
    ∀ (runs : List (Bool × List Char)) (right : Int),
      coverCount adv (glyphsOfTrace adv (drawRunsGo adv y runs right)) t
        = if right - (runs.map (fun r => measureAdv adv r.2)).sum ≤ t ∧ t < right
          then 1 else 0 := by
  intro runs
  induction runs with
  | nil =>
    intro right
    simp only [drawRunsGo, glyphsOfTrace, coverCount, List.countP_nil, List.map_nil,
      List.sum_nil]
    split_ifs <;> omega
  | cons hd rest ih =>
    intro right
    obtain ⟨isL, seg⟩ := hd
    have hd1 : drawRunsGo adv y ((isL, seg) :: rest) right
        = (if isL then [(seg, right - measureAdv adv seg, y)]
           else drawRtlChars adv y seg.reverse (right - measureAdv adv seg))
          ++ drawRunsGo adv y rest (right - measureAdv adv seg) := rfl
    rw [hd1, glyphsOfTrace_append, coverCount_append]
    have hsum : (((isL, seg) :: rest).map (fun r => measureAdv adv r.2)).sum
        = measureAdv adv seg + (rest.map (fun r => measureAdv adv r.2)).sum := by simp
    rw [hsum, ih]
    have hw : 0 ≤ measureAdv adv seg := measureAdv_nonneg adv seg
    have hr := runWidths_nonneg adv rest
    cases isL with
    | true =>
      rw [if_pos rfl]
      have hg : glyphsOfTrace adv [(seg, right - measureAdv adv seg, y)]
          = placeChars adv y seg (right - measureAdv adv seg) := by
        simp [glyphsOfTrace]
      rw [hg, placeChars_cover]
      split_ifs <;> omega
    | false =>
      rw [if_neg Bool.false_ne_true]
      rw [drawRtl_glyphs, placeChars_cover, measureAdv_reverse]
      split_ifs <;> omega

/-- C2: drawing any logical string with `draw_mixed_rtl_right` tiles the
horizontal interval `[x_right - W, x_right)` exactly once, where `W` is the
sum of the per-run measured widths: every position in that interval is
covered by exactly one drawn glyph (no overlap, no gap) and nothing outside
it is covered, so the leftmost drawn x is `x_right - W` and the occupied
span is exactly `W`. -/
theorem mixed_draw_span (σ : List Char → List Char) (adv : Char → Nat)
    (s : List Char) (xr y t : Int) :
    coverCount adv (glyphsOfTrace adv (drawMixedRtlRight σ adv s xr y)) t
      = if xr - ((mixedRuns (σ s)).map (fun r => measureAdv adv r.2)).sum ≤ t ∧ t < xr
        then 1 else 0 :=
  drawRunsGo_cover adv y t (mixedRuns (σ s)) xr

/-- C9: for a string of only LTR-classified characters (left unchanged by
reshaping), the mixed-direction right-anchored renderer places exactly the
same glyphs at the same positions as the unsegmented pure-LTR path. -/
theorem ltr_draw_pixel_identical (σ : List Char → List Char) (adv : Char → Nat)
    (s : List Char) (xr y : Int) (hσ : σ s = s)
    (hltr : ∀ c ∈ s, isLtrChar c = true) :
    glyphsOfTrace adv (drawMixedRtlRight σ adv s xr y)
      = glyphsOfTrace adv (drawLtrRight adv s xr y) := by
  rw [drawMixedRtlRight, hσ]
  cases s with
  | nil => rfl
  | cons c rest =>
    rw [mixedRuns_allLtr c rest hltr]
    simp [drawRunsGo, drawLtrRight, glyphsOfTrace]

theorem ltr_draw_pixel_identical_witness :
    (id ['A', '7'] = ['A', '7'] ∧ ∀ c ∈ (['A', '7'] : List Char), isLtrChar c = true) ∧
    glyphsOfTrace cAdv (drawMixedRtlRight id cAdv ['A', '7'] 50 9)
      = glyphsOfTrace cAdv (drawLtrRight cAdv ['A', '7'] 50 9) :=
  ⟨⟨rfl, by decide⟩, ltr_draw_pixel_identical id cAdv ['A', '7'] 50 9 rfl (by decide)⟩

theorem printBands_bounded (g : GrayImg) (t : Nat) :
    ∀ (d y0 : Nat), g.height - y0 ≤ d →
      printBands g t y0
        = concatList ((List.range ((g.height - y0 + 23) / 24)).map
            (fun i => bandChunk g t (y0 + 24 * i))) := by
  intro d
  induction d with
  | zero =>
    intro y0 h0
    rw [printBands, if_neg (by omega)]
    have h1 : (g.height - y0 + 23) / 24 = 0 := by omega
    rw [h1]
    rfl
  | succ d ih =>
    intro y0 h
    rw [printBands]
    by_cases h1 : y0 < g.height
    · rw [if_pos h1, ih (y0 + 24) (by omega)]
      have hnb : (g.height - y0 + 23) / 24 = (g.height - (y0 + 24) + 23) / 24 + 1 := by
        omega
      rw [hnb, List.range_succ_eq_map, List.map_cons, List.map_map]
      have hfun : (fun i => bandChunk g t (y0 + 24 * i)) ∘ Nat.succ
          = fun i => bandChunk g t (y0 + 24 + 24 * i) := by
        funext i
        have harg : y0 + 24 * Nat.succ i = y0 + 24 + 24 * i := by omega
        simp only [Function.comp_apply, harg]
      rw [hfun]
      have h0 : y0 + 24 * 0 = y0 := by omega
      rw [h0]
      rfl
    · rw [if_neg h1]
      have h2 : (g.height - y0 + 23) / 24 = 0 := by omega
      rw [h2]
      rfl

theorem printBands_closed (g : GrayImg) (t : Nat) (y0 : Nat) :
    printBands g t y0
      = concatList ((List.range ((g.height - y0 + 23) / 24)).map
          (fun i => bandChunk g t (y0 + 24 * i))) :=
  printBands_bounded g t (g.height - y0) y0 le_rfl

/-- C8: the emitted byte stream is one band per 24-row slice in increasing
`y0` order (`⌈height/24⌉` bands, band `i` starting at row `24 i`), each
preceded by the 5 bytes `ESC * 33 nL nH` with `nL`/`nH` the little-endian
halves of the image width (for width 576: `nL = 0x40`, `nH = 0x02`) and
followed by a line feed; a final line feed and the cut command terminate
the job. -/
theorem print_stream_structure (g : GrayImg) (t : Nat) (cut : List Nat) :
    printStream g t cut
      = concatList ((List.range ((g.height + 23) / 24)).map
          (fun i => escStarHeader g.width ++ packEscStar24 g (24 * i) t ++ [0x0A]))
        ++ [0x0A] ++ cut ∧
    escNL g.width + 256 * escNH g.width = g.width % 65536 ∧
    escStarHeader 576 = [0x1B, 0x2A, 33, 0x40, 0x02] := by
  refine ⟨?_, ?_, by decide⟩
  · rw [printStream, printBands_closed]
    have h0 : g.height - 0 + 23 = g.height + 23 := by omega
    rw [h0]
    have hfun : (fun i => bandChunk g t (0 + 24 * i))
        = fun i => escStarHeader g.width ++ packEscStar24 g (24 * i) t ++ [0x0A] := by
      funext i
      rw [Nat.zero_add]
      rfl
    rw [hfun]
  · rw [escNL, escNH]
    omega

theorem dropWhile_length_le (p : Char → Bool) (l : List Char) :
    (l.dropWhile p).length ≤ l.length := by
  induction l with
  | nil => simp
  | cons c l ih =>
    rw [List.dropWhile_cons]
    split_ifs with h
    · simp only [List.length_cons]
      omega
    · exact le_rfl

theorem trimEnd_length_le (s : List Char) : (trimEnd s).length ≤ s.length := by
  rw [trimEnd, List.length_reverse]
  calc (s.reverse.dropWhile rustIsWhitespace).length
      ≤ s.reverse.length := dropWhile_length_le _ _
    _ = s.length := List.length_reverse _

theorem lenW_trimEnd_le (s : List Char) : lenW (trimEnd s) ≤ lenW s := by
  rw [lenW, lenW]
  exact_mod_cast trimEnd_length_le s

theorem lenW_trimEnd_append_le (s : List Char) :
    lenW (trimEnd s ++ ['…']) ≤ lenW (s ++ ['…']) := by
  rw [lenW, lenW]
  simp only [List.length_append]
  have := trimEnd_length_le s
  omega

theorem ellLoopF_fits (W : List Char → Int) (maxW : Int) :
    ∀ (n : Nat) (s2 : List Char), s2.length ≤ n →
      W (ellLoopF W maxW n s2 ++ ['…']) ≤ maxW ∨ ellLoopF W maxW n s2 = [] := by
  intro n
  induction n with
  | zero =>
    intro s2 h
    have h0 : s2 = [] := List.length_eq_zero.mp (Nat.le_zero.mp h)
    right
    rw [h0]
    rfl
  | succ n ih =>
    intro s2 h
    rw [ellLoopF]
    split_ifs with hc
    · apply ih
      have hpos : 0 < s2.length := List.length_pos.mpr hc.2
      rw [List.length_dropLast]
      omega
    · rw [not_and_or] at hc
      rcases hc with h1 | h2
      · left
        omega
      · right
        exact not_not.mp h2

theorem wrapLoop_len (W : List Char → Int) (maxW : Int) :
    ∀ (toks out : List (List Char)) (line : List Char),
      out.length ≤ 1 → (wrapLoop W maxW toks out line).1.length ≤ 2 := by
  intro toks
  induction toks with
  | nil =>
    intro out line h
    simp only [wrapLoop]
    omega
  | cons tok rest ih =>
    intro out line h
    simp only [wrapLoop]
    split_ifs with h1 h2
    · exact ih out (line ++ tok) h
    · simp only [List.length_append, List.length_cons, List.length_nil]
      omega
    · apply ih
      simp only [List.length_append, List.length_cons, List.length_nil] at h2 ⊢
      omega

theorem wrapLoop_widths (W : List Char → Int) (maxW : Int)
    (Ha : ∀ s, W (trimEnd s) ≤ W s) :
    ∀ (toks out : List (List Char)) (line : List Char),
      (∀ l ∈ out, W l ≤ maxW) → (line ≠ [] → W line ≤ maxW) →
      (∀ tok ∈ toks, W tok ≤ maxW) →
      (∀ l ∈ (wrapLoop W maxW toks out line).1, W l ≤ maxW)
        ∧ ((wrapLoop W maxW toks out line).2 ≠ [] →
            W (wrapLoop W maxW toks out line).2 ≤ maxW) := by
  intro toks
  induction toks with
  | nil =>
    intro out line ho hl ht
    simp only [wrapLoop]
    exact ⟨ho, hl⟩
  | cons tok rest ih =>
    intro out line ho hl ht
    have htok : W tok ≤ maxW := ht tok (List.mem_cons_self _ _)
    have hrest : ∀ u ∈ rest, W u ≤ maxW := fun u hu => ht u (List.mem_cons_of_mem _ hu)
    simp only [wrapLoop]
    split_ifs with h1 h2
    · apply ih out (line ++ tok) ho ?_ hrest
      intro _
      rcases h1 with hw | hnil
      · exact hw
      · rw [hnil, List.nil_append]
        exact htok
    · push_neg at h1
      have hwl : W (trimEnd line) ≤ maxW := le_trans (Ha line) (hl h1.2)
      constructor
      · intro l hlm
        rcases List.mem_append.mp hlm with hA | hB
        · exact ho l hA
        · rw [List.mem_singleton] at hB
          rw [hB]
          exact hwl
      · intro _
        exact htok
    · push_neg at h1
      apply ih (out ++ [trimEnd line]) tok ?_ (fun _ => htok) hrest
      intro l hlm
      rcases List.mem_append.mp hlm with hA | hB
      · exact ho l hA
      · rw [List.mem_singleton] at hB
        rw [hB]
        exact le_trans (Ha line) (hl h1.2)

theorem wrapStage2_len (W : List Char → Int) (logical : List Char) (maxW : Int) :
    (wrapStage2 W logical maxW).length ≤ 2 := by
  have h : (wrapStage1 W logical maxW).1.length ≤ 2 :=
    wrapLoop_len W maxW (splitInclusive rustIsWhitespace logical) [] [] (by simp)
  rw [wrapStage2]
  split_ifs with hc
  · simp only [List.length_append, List.length_cons, List.length_nil]
    omega
  · exact h

theorem wrapPre_len (W : List Char → Int) (logical : List Char) (maxW : Int) :
    (wrapPre W logical maxW).length ≤ 2 := by
  rw [wrapPre]
  split_ifs with h
  · rw [List.length_take]
    omega
  · exact wrapStage2_len W logical maxW

theorem wrap_len (W : List Char → Int) (logical : List Char) (maxW : Int) :
    (wrapMixedRtl W logical maxW).length ≤ 2 := by
  rw [wrapMixedRtl]
  split_ifs with h
  · rw [List.length_set]
    exact wrapPre_len W logical maxW
  · exact wrapPre_len W logical maxW

theorem wrapStage2_widths (W : List Char → Int) (logical : List Char) (maxW : Int)
    (Ha : ∀ s, W (trimEnd s) ≤ W s)
    (Hb : ∀ tok ∈ splitInclusive rustIsWhitespace logical, W tok ≤ maxW) :
    ∀ l ∈ wrapStage2 W logical maxW, W l ≤ maxW := by
  have h : (∀ l ∈ (wrapStage1 W logical maxW).1, W l ≤ maxW)
      ∧ ((wrapStage1 W logical maxW).2 ≠ [] → W (wrapStage1 W logical maxW).2 ≤ maxW) :=
    wrapLoop_widths W maxW Ha (splitInclusive rustIsWhitespace logical) [] []
      (by simp) (fun hcon => absurd rfl hcon) Hb
  intro l hl
  rw [wrapStage2] at hl
  split_ifs at hl with hc
  · rcases List.mem_append.mp hl with hA | hB
    · exact h.1 l hA
    · rw [List.mem_singleton] at hB
      rw [hB]
      exact le_trans (Ha _) (h.2 hc.2)
  · exact h.1 l hl

theorem wrapPre_widths (W : List Char → Int) (logical : List Char) (maxW : Int)
    (Ha : ∀ s, W (trimEnd s) ≤ W s)
    (Hb : ∀ tok ∈ splitInclusive rustIsWhitespace logical, W tok ≤ maxW) :
    ∀ l ∈ wrapPre W logical maxW, W l ≤ maxW := by
  intro l hl
  rw [wrapPre] at hl
  split_ifs at hl with h1
  · exact wrapStage2_widths W logical maxW Ha Hb l (List.take_subset 2 _ hl)
  · exact wrapStage2_widths W logical maxW Ha Hb l hl

/-- C3 (amended): `wrap_mixed_rtl` always returns at most 2 lines; the
width bound `W line ≤ max_width` holds for every returned line provided
every whitespace-delimited token itself fits in `max_width`, measuring
never grows under trailing-whitespace trimming (also with the appended
ellipsis), and the ellipsis alone fits. Without the token proviso a single
oversized token is returned as a line wider than `max_width`. -/
theorem wrap_two_lines_and_width (W : List Char → Int) (logical : List Char)
    (maxW : Int) :
    (wrapMixedRtl W logical maxW).length ≤ 2 ∧
    ((∀ s, W (trimEnd s) ≤ W s) →
      (∀ s, W (trimEnd s ++ ['…']) ≤ W (s ++ ['…'])) →
      W ['…'] ≤ maxW →
      (∀ tok ∈ splitInclusive rustIsWhitespace logical, W tok ≤ maxW) →
      ∀ l ∈ wrapMixedRtl W logical maxW, W l ≤ maxW) := by
  refine ⟨wrap_len W logical maxW, ?_⟩
  intro Ha Hc Hd Hb l hl
  rw [wrapMixedRtl] at hl
  split_ifs at hl with h2
  · rcases List.mem_or_eq_of_mem_set hl with hA | hB
    · exact wrapPre_widths W logical maxW Ha Hb l hA
    · rw [hB]
      rcases ellLoopF_fits W maxW ((wrapPre W logical maxW).getD 1 []).length
          ((wrapPre W logical maxW).getD 1 []) le_rfl with hf | hf
      · exact le_trans (Hc _) hf
      · rw [hf]
        exact Hd
  · exact wrapPre_widths W logical maxW Ha Hb l hl

theorem wrap_two_lines_and_width_witness :
    (wrapMixedRtl lenW ['a', ' ', 'b'] 2).length ≤ 2 ∧
      ∀ l ∈ wrapMixedRtl lenW ['a', ' ', 'b'] 2, lenW l ≤ 2 :=
  ⟨(wrap_two_lines_and_width lenW ['a', ' ', 'b'] 2).1,
    (wrap_two_lines_and_width lenW ['a', ' ', 'b'] 2).2 lenW_trimEnd_le
      lenW_trimEnd_append_le (by decide) (by decide)⟩

/-- C3 counterexample: a single unbreakable token wider than `max_width` is
still returned as a (single) line, whose measured width exceeds
`max_width` — the claimed unconditional width bound fails. -/
theorem wrap_width_bound_counterexample :
    wrapMixedRtl tenW ['a', 'b'] 5 = [['a', 'b']] ∧ 5 < tenW ['a', 'b'] := by decide

/-- C5 (amended): the ellipsis mark is appended to the second line iff
exactly two lines are returned — even when the whole input fits in those
two lines and nothing was dropped; a result of fewer than two lines is the
pre-ellipsis wrap output, unmodified. -/
theorem wrap_ellipsis_two_lines (W : List Char → Int) (logical : List Char)
    (maxW : Int) :
    ((wrapMixedRtl W logical maxW).length = 2 →
      ((wrapMixedRtl W logical maxW).getD 1 []).getLast? = some '…') ∧
    ((wrapMixedRtl W logical maxW).length ≠ 2 →
      wrapMixedRtl W logical maxW = wrapPre W logical maxW) := by
  have hl : ∀ (l : List Char), (l ++ ['…']).getLast? = some '…' := by
    intro l
    rw [List.getLast?_concat]
  by_cases h : (wrapPre W logical maxW).length = 2
  · constructor
    · intro _
      rw [wrapMixedRtl, if_pos h]
      obtain ⟨a, b, hab⟩ := List.length_eq_two.mp h
      rw [hab]
      exact hl _
    · intro hne
      exfalso
      apply hne
      rw [wrapMixedRtl, if_pos h, List.length_set]
      exact h
  · constructor
    · intro h2
      exfalso
      rw [wrapMixedRtl, if_neg h] at h2
      exact h h2
    · intro _
      rw [wrapMixedRtl, if_neg h]

/-- C5 counterexample: the input "x y" fits completely into two lines
(pre-ellipsis lines "x" and "y", both within the width), yet the returned
second line carries an appended ellipsis. -/
theorem wrap_ellipsis_counterexample :
    wrapPre lenW ['x', ' ', 'y'] 2 = [['x'], ['y']] ∧
      wrapMixedRtl lenW ['x', ' ', 'y'] 2 = [['x'], ['y', '…']] := by decide

theorem wrap_ellipsis_two_lines_witness :
    (wrapMixedRtl lenW ['c', ' ', 'd'] 2).length = 2 ∧
      ((wrapMixedRtl lenW ['c', ' ', 'd'] 2).getD 1 []).getLast? = some '…' :=
  ⟨by decide, (wrap_ellipsis_two_lines lenW ['c', ' ', 'd'] 2).1 (by decide)⟩

/-- C7: with the default layout, a receipt of 65 items whose names each
wrap to one line reaches the dotted separator at y = 2013, at or beyond the
pre-allocated canvas height of 2000; `draw_dotted` clamps `y` only at 0 and
then calls `put_pixel` out of bounds, which panics instead of silently
clipping — contradicting the never-fail design. -/
theorem render_separator_out_of_bounds :
    ySeparator defaultLayout (List.replicate 65 1) = 2013 ∧
    canvasHeight = 2000 ∧
    (wrapMixedRtl lenW ['a'] 345).length = 1 ∧
    dottedPanics defaultLayout.paperWidthPx canvasHeight
      (ySeparator defaultLayout (List.replicate 65 1)) defaultLayout.marginH
      ((defaultLayout.paperWidthPx : Int) - defaultLayout.marginH) = true := by decide
